import Mathlib

/-!
Verification of `checkit.py` (`process_dictionary`): a shallow embedding of the
JSON-dictionary normalizer, followed by theorems about its duplicate handling,
partitioning, sorting, statistics and file side effect.
-/

namespace Checkit

/-- JSON values as produced by `json.load` (numbers restricted to integers,
which is all the development needs). -/
inductive JValue where
  | null : JValue
  | bool (b : Bool) : JValue
  | num (n : Int) : JValue
  | str (s : String) : JValue
  | arr (elems : List JValue) : JValue
  | obj (fields : List (String × JValue)) : JValue

/-- Python truthiness: `not value` is true exactly for `None`, `False`, `0`,
the empty string, the empty list and the empty dict. -/
def JValue.falsy : JValue → Bool
  | .null => true
  | .bool b => !b
  | .num n => decide (n = 0)
  | .str s => s.data.isEmpty
  | .arr es => es.isEmpty
  | .obj fs => fs.isEmpty

mutual

/-- Python `repr` of a JSON value (string escaping inside reprs is not modelled;
no claim depends on it). -/
def pyRepr : JValue → String
  | .null => "None"
  | .bool b => if b then "True" else "False"
  | .num n => toString n
  | .str s => "\x27" ++ s ++ "\x27"
  | .arr es => "[" ++ String.intercalate ", " (pyReprList es) ++ "]"
  | .obj fs => "\x7b" ++ String.intercalate ", " (pyReprFields fs) ++ "\x7d"

def pyReprList : List JValue → List String
  | [] => []
  | v :: vs => pyRepr v :: pyReprList vs

def pyReprFields : List (String × JValue) → List String
  | [] => []
  | (k, v) :: fs => ("\x27" ++ k ++ "\x27: " ++ pyRepr v) :: pyReprFields fs

end

/-- Python `str(value)`: the string itself for strings, `repr` otherwise. -/
def pyStr : JValue → String
  | .str s => s
  | v => pyRepr v

mutual

/-- `json.dumps(value, ensure_ascii=False)` with default separators
(string escaping is not modelled; no claim depends on it). -/
def jsonStr : JValue → String
  | .null => "null"
  | .bool b => if b then "true" else "false"
  | .num n => toString n
  | .str s => "\"" ++ s ++ "\""
  | .arr es => "[" ++ String.intercalate ", " (jsonStrList es) ++ "]"
  | .obj fs => "\x7b" ++ String.intercalate ", " (jsonStrFields fs) ++ "\x7d"

def jsonStrList : List JValue → List String
  | [] => []
  | v :: vs => jsonStr v :: jsonStrList vs

def jsonStrFields : List (String × JValue) → List String
  | [] => []
  | (k, v) :: fs => ("\"" ++ k ++ "\": " ++ jsonStr v) :: jsonStrFields fs

end

/-- A single-key mapping `\x7bkey: value\x7d`, destructured. -/
abbrev Entry := String × JValue

/-- Python dict lookup: `unique_entries[key]` / `key in unique_entries`
(a Python dict preserves insertion order, modelled as an association list). -/
def dictGet : List Entry → String → Option JValue
  | [], _ => none
  | (k, v) :: rest, key => if k = key then some v else dictGet rest key

/-- Python dict assignment `d[key] = value`: overwrite in place if the key is
present, else append at the end. -/
def dictSet : List Entry → String → JValue → List Entry
  | [], key, value => [(key, value)]
  | (k, v) :: rest, key, value =>
    if k = key then (k, value) :: rest else (k, v) :: dictSet rest key value

/-- `duplicates_report.setdefault(key, []).append(value)`. -/
def reportAdd : List (String × List JValue) → String → JValue → List (String × List JValue)
  | [], key, value => [(key, [value])]
  | (k, vs) :: rest, key, value =>
    if k = key then (k, vs ++ [value]) :: rest else (k, vs) :: reportAdd rest key value

/-- The mutable state of the loop in `process_dictionary`:
`unique_entries`, `duplicates_report`, the two groups, and the two
duplicate counters of `stats`. -/
structure PState where
  unique_entries : List Entry
  duplicates_report : List (String × List JValue)
  entries_with_value : List Entry
  entries_without_value : List Entry
  duplicates_found : Nat
  duplicates_removed : Nat

def initState : PState := ⟨[], [], [], [], 0, 0⟩

/-- The shared tail of the loop body: `unique_entries[key] = value` followed by
appending `\x7bkey: value\x7d` to the group selected by `if value:`. -/
def record (st : PState) (key : String) (value : JValue) : PState :=
  let st1 := { st with unique_entries := dictSet st.unique_entries key value }
  if value.falsy then
    { st1 with entries_without_value := st1.entries_without_value ++ [(key, value)] }
  else
    { st1 with entries_with_value := st1.entries_with_value ++ [(key, value)] }

/-- One iteration of the `for entry in data` loop for an already destructured
single-key entry. Mirrors lines 46-61 of `checkit.py`: on a duplicate key the
counters and report are updated, an empty value is removed when
`remove_empty_duplicates`, a truthy retained value wins; otherwise control
falls through to `record`. -/
def step (remove_empty_duplicates : Bool) (st : PState) (key : String) (value : JValue) :
    PState :=
  match dictGet st.unique_entries key with
  | some retained =>
    let st1 := { st with
      duplicates_found := st.duplicates_found + 1,
      duplicates_report := reportAdd st.duplicates_report key value }
    if remove_empty_duplicates && value.falsy then
      { st1 with duplicates_removed := st1.duplicates_removed + 1 }
    else if !retained.falsy then st1
    else record st1 key value
  | none => record st key value

/-- `isinstance(entry, dict) and len(entry) == 1`, returning
`next(iter(entry.items()))` when the shape is right. -/
def asSingleEntry : JValue → Option Entry
  | .obj [(k, v)] => some (k, v)
  | _ => none

/-- The `for entry in data` loop: raises `ValueError` on a non-single-key
element, otherwise threads `step` over the items. -/
def runEntries (remove_empty_duplicates : Bool) (st : PState) :
    List JValue → Except String PState
  | [] => .ok st
  | e :: rest =>
    match asSingleEntry e with
    | none => .error "Каждый объект должен содержать одну пару key:value."
    | some (key, value) =>
        runEntries remove_empty_duplicates (step remove_empty_duplicates st key value) rest

/-- Python `str.lower()` (simple per-character case folding). -/
def strLower (s : String) : String :=
  ⟨s.data.map Char.toLower⟩

/-- Python `<=` on strings restricted to character lists: code-point
lexicographic order. -/
def charsLE : List Char → List Char → Bool
  | [], _ => true
  | _ :: _, [] => false
  | a :: as, b :: bs =>
    if a.toNat < b.toNat then true
    else if b.toNat < a.toNat then false
    else charsLE as bs

/-- Python `<=` on strings: code-point lexicographic order. -/
def strLE (s t : String) : Bool :=
  charsLE s.data t.data

/-- The `sort_key` closure: lowercased key when `sort_by == "key"`, otherwise
lowercased `str(value)`. -/
def sort_key (sort_by : String) (item : Entry) : String :=
  if sort_by = "key" then strLower item.1 else strLower (pyStr item.2)

/-- The order Python's stable sort applies: compare the computed sort keys. -/
def sortRel (sort_by : String) (a b : Entry) : Prop :=
  strLE (sort_key sort_by a) (sort_key sort_by b) = true

instance (sort_by : String) : DecidableRel (sortRel sort_by) := fun a b =>
  inferInstanceAs (Decidable (strLE (sort_key sort_by a) (sort_key sort_by b) = true))

/-- Python's stable `list.sort(key=sort_key)`. Any stable sort of a total
preorder computes the same list; the structurally recursive (stable)
`List.insertionSort` is used. -/
def sortGroup (sort_by : String) (l : List Entry) : List Entry :=
  List.insertionSort (sortRel sort_by) l

/-- The `stats` dictionary returned by `process_dictionary`. -/
structure Stats where
  total_entries : Nat
  duplicates_found : Nat
  duplicates_removed : Nat
  entries_with_value : Nat
  entries_without_value : Nat

/-- The pure transform of `process_dictionary` on already parsed JSON `data`:
shape validation, the deduplication loop, the two sorts, the concatenation,
and the final statistics. Errors model the raised `ValueError`s. -/
def process_dictionary (data : JValue) (sort_by : String) (remove_empty_duplicates : Bool) :
    Except String (List Entry × Stats) :=
  match data with
  | .arr items =>
    match runEntries remove_empty_duplicates initState items with
    | .error e => .error e
    | .ok st =>
      let withSorted := sortGroup sort_by st.entries_with_value
      let withoutSorted := sortGroup sort_by st.entries_without_value
      .ok (withSorted ++ withoutSorted,
        { total_entries := items.length,
          duplicates_found := st.duplicates_found,
          duplicates_removed := st.duplicates_removed,
          entries_with_value := withSorted.length,
          entries_without_value := withoutSorted.length })
  | _ => .error "JSON должен быть массивом объектов [\x7bkey: value\x7d, ...]."

/-- Re-encode a result list as a JSON document `[\x7bk: v\x7d, ...]`, the shape
in which a saved result would be parsed again. -/
def toDoc (entries : List Entry) : JValue :=
  .arr (entries.map fun e => .obj [e])

/-- One output line: `json.dump(entry, f, ensure_ascii=False)` for a
single-key dict. -/
def serializeEntry (e : Entry) : String :=
  jsonStr (.obj [e])

/-- The text written between the brackets: each entry on its own line,
`,\n` after every entry but the last, `\n` after the last. -/
def serializeBody : List Entry → String
  | [] => ""
  | [e] => serializeEntry e ++ "\n"
  | e :: rest => serializeEntry e ++ ",\n" ++ serializeBody rest

/-- The exact text written to the destination file (lines 78-86). -/
def serializeResult (result : List Entry) : String :=
  "[\n" ++ serializeBody result ++ "]"

/-- The observable behavior of a full `process_dictionary` call, file effect
included: from the parsed JSON `data` and the current destination text `orig`,
the returned pair and the destination text after the call. -/
def run_process (data : JValue) (sort_by : String)
    (remove_empty_duplicates modify_original : Bool) (orig : String) :
    Except String (List Entry × Stats × String) :=
  match process_dictionary data sort_by remove_empty_duplicates with
  | .error e => .error e
  | .ok (result, stats) =>
    .ok (result, stats, if modify_original then serializeResult result else orig)

/-- The destination file text after a call, also when the call raises
(the write at lines 77-86 is only reached on success). -/
def fileAfter (data : JValue) (sort_by : String)
    (remove_empty_duplicates modify_original : Bool) (orig : String) : String :=
  match run_process data sort_by remove_empty_duplicates modify_original orig with
  | .ok (_, _, f) => f
  | .error _ => orig

/-- The shape the validation accepts: a JSON array whose elements are all
single-key objects. -/
def shapeOk : JValue → Bool
  | .arr items => items.all fun e => (asSingleEntry e).isSome
  | _ => false

/-- The destructured entries of a document (exact when the shape is valid). -/
def entriesOf : JValue → List Entry
  | .arr items => items.filterMap asSingleEntry
  | _ => []

/-- The two groups in first-seen order, before sorting. -/
def groupsOf (data : JValue) (remove_empty_duplicates : Bool) : List Entry × List Entry :=
  match data with
  | .arr items =>
    match runEntries remove_empty_duplicates initState items with
    | .ok st => (st.entries_with_value, st.entries_without_value)
    | .error _ => ([], [])
  | _ => ([], [])

/-- The number of loop iterations that `continue` without adding their entry to
either group: the duplicate occurrences dropped from the output, whether
counted in `duplicates_removed` or not. -/
def droppedCount (remove_empty_duplicates : Bool) (uniq : List Entry) : List Entry → Nat
  | [] => 0
  | (k, v) :: rest =>
    match dictGet uniq k with
    | some retained =>
      if remove_empty_duplicates && v.falsy then
        droppedCount remove_empty_duplicates uniq rest + 1
      else if !retained.falsy then
        droppedCount remove_empty_duplicates uniq rest + 1
      else
        droppedCount remove_empty_duplicates (dictSet uniq k v) rest
    | none => droppedCount remove_empty_duplicates (dictSet uniq k v) rest

/-! ### Order properties of the comparison -/

theorem charsLE_cons {a b : Char} {as bs : List Char} :
    charsLE (a :: as) (b :: bs) = true ↔
      a.toNat < b.toNat ∨ (a.toNat = b.toNat ∧ charsLE as bs = true) := by
  rw [show charsLE (a :: as) (b :: bs) =
      if a.toNat < b.toNat then true
      else if b.toNat < a.toNat then false
      else charsLE as bs from rfl]
  split_ifs with h1 h2
  · simp [h1]
  · simp only [Bool.false_eq_true, false_iff]
    rintro (h | ⟨h, -⟩) <;> omega
  · have h : a.toNat = b.toNat := by omega
    simp [h, h1]

theorem charsLE_total : ∀ xs ys : List Char, charsLE xs ys = true ∨ charsLE ys xs = true
  | [], _ => Or.inl rfl
  | _ :: _, [] => Or.inr rfl
  | a :: as, b :: bs => by
    rcases Nat.lt_trichotomy a.toNat b.toNat with hc | hc | hc
    · exact Or.inl (charsLE_cons.mpr (Or.inl hc))
    · rcases charsLE_total as bs with h | h
      · exact Or.inl (charsLE_cons.mpr (Or.inr ⟨hc, h⟩))
      · exact Or.inr (charsLE_cons.mpr (Or.inr ⟨hc.symm, h⟩))
    · exact Or.inr (charsLE_cons.mpr (Or.inl hc))

theorem charsLE_trans :
    ∀ xs ys zs : List Char,
      charsLE xs ys = true → charsLE ys zs = true → charsLE xs zs = true
  | [], _, _, _, _ => rfl
  | _ :: _, [], _, h1, _ => by simp [charsLE] at h1
  | _ :: _, _ :: _, [], _, h2 => by simp [charsLE] at h2
  | a :: as, b :: bs, c :: cs, h1, h2 => by
    rcases charsLE_cons.mp h1 with hab | ⟨hab, h1r⟩ <;>
      rcases charsLE_cons.mp h2 with hbc | ⟨hbc, h2r⟩
    · exact charsLE_cons.mpr (Or.inl (by omega))
    · exact charsLE_cons.mpr (Or.inl (by omega))
    · exact charsLE_cons.mpr (Or.inl (by omega))
    · exact charsLE_cons.mpr (Or.inr ⟨by omega, charsLE_trans as bs cs h1r h2r⟩)

theorem strLE_total (s t : String) : strLE s t = true ∨ strLE t s = true :=
  charsLE_total s.data t.data

theorem strLE_trans {s t u : String} :
    strLE s t = true → strLE t u = true → strLE s u = true :=
  charsLE_trans s.data t.data u.data

instance (sort_by : String) : IsTotal Entry (sortRel sort_by) :=
  ⟨fun _ _ => strLE_total _ _⟩

instance (sort_by : String) : IsTrans Entry (sortRel sort_by) :=
  ⟨fun _ _ _ => strLE_trans⟩

/-! ### Association-list (Python dict) lemmas -/

theorem dictGet_eq_none {d : List Entry} {k : String} :
    dictGet d k = none ↔ k ∉ d.map Prod.fst := by
  induction d with
  | nil => simp [dictGet]
  | cons e rest ih =>
    obtain ⟨k2, v2⟩ := e
    simp only [dictGet, List.map_cons, List.mem_cons]
    by_cases h : k2 = k
    · subst h
      simp
    · rw [if_neg h, ih]
      constructor
      · intro hn
        push_neg
        exact ⟨fun hh => h hh.symm, hn⟩
      · intro hn
        push_neg at hn
        exact hn.2

theorem dictGet_dictSet (d : List Entry) (k : String) (v : JValue) (k2 : String) :
    dictGet (dictSet d k v) k2 = if k = k2 then some v else dictGet d k2 := by
  induction d with
  | nil => simp [dictSet, dictGet]
  | cons e rest ih =>
    obtain ⟨k3, v3⟩ := e
    by_cases h3 : k3 = k
    · subst h3
      by_cases h2 : k3 = k2 <;> simp [dictSet, dictGet, h2]
    · by_cases h2 : k3 = k2
      · subst h2
        have : ¬ k = k3 := fun h => h3 h.symm
        simp [dictSet, dictGet, h3, this]
      · simp [dictSet, dictGet, h3, h2, ih]

/-! ### Facts about `record` and `step` -/

theorem record_unique (st : PState) (k : String) (v : JValue) :
    (record st k v).unique_entries = dictSet st.unique_entries k v := by
  unfold record
  split <;> rfl

theorem record_found (st : PState) (k : String) (v : JValue) :
    (record st k v).duplicates_found = st.duplicates_found := by
  unfold record
  split <;> rfl

theorem record_removed (st : PState) (k : String) (v : JValue) :
    (record st k v).duplicates_removed = st.duplicates_removed := by
  unfold record
  split <;> rfl

theorem record_with_of_truthy {v : JValue} (st : PState) (k : String) (h : v.falsy = false) :
    (record st k v).entries_with_value = st.entries_with_value ++ [(k, v)] ∧
      (record st k v).entries_without_value = st.entries_without_value := by
  unfold record
  rw [h]
  exact ⟨rfl, rfl⟩

theorem record_without_of_falsy {v : JValue} (st : PState) (k : String) (h : v.falsy = true) :
    (record st k v).entries_without_value = st.entries_without_value ++ [(k, v)] ∧
      (record st k v).entries_with_value = st.entries_with_value := by
  unfold record
  rw [h]
  exact ⟨rfl, rfl⟩

theorem record_group_length (st : PState) (k : String) (v : JValue) :
    (record st k v).entries_with_value.length + (record st k v).entries_without_value.length
      = st.entries_with_value.length + st.entries_without_value.length + 1 := by
  unfold record
  split <;> simp <;> omega

/-- The not-yet-seen branch: lines 55-61 run directly. -/
theorem step_not_seen {st : PState} {key : String} (re : Bool) (value : JValue)
    (h : dictGet st.unique_entries key = none) :
    step re st key value = record st key value := by
  unfold step
  rw [h]

/-- Duplicate, empty value, `remove_empty_duplicates` on: counted as removed
and skipped. -/
theorem step_dup_removed {st : PState} {key : String} {re : Bool} {value retained : JValue}
    (h : dictGet st.unique_entries key = some retained)
    (hrm : (re && value.falsy) = true) :
    step re st key value =
      { st with
        duplicates_found := st.duplicates_found + 1,
        duplicates_report := reportAdd st.duplicates_report key value,
        duplicates_removed := st.duplicates_removed + 1 } := by
  unfold step
  rw [h, hrm]
  rfl

/-- Duplicate with a truthy retained value (and not removed): skipped, the
first non-empty value wins. -/
theorem step_dup_keep {st : PState} {key : String} {re : Bool} {value retained : JValue}
    (h : dictGet st.unique_entries key = some retained)
    (hrm : (re && value.falsy) = false) (hret : retained.falsy = false) :
    step re st key value =
      { st with
        duplicates_found := st.duplicates_found + 1,
        duplicates_report := reportAdd st.duplicates_report key value } := by
  unfold step
  rw [h]
  simp only [hrm, hret, Bool.false_eq_true, if_false, Bool.not_false, if_true]

/-- Duplicate, not removed, retained value falsy: control falls through to
`record`, overwriting the retained value and appending to a group. -/
theorem step_dup_promote {st : PState} {key : String} {re : Bool} {value retained : JValue}
    (h : dictGet st.unique_entries key = some retained)
    (hrm : (re && value.falsy) = false) (hret : retained.falsy = true) :
    step re st key value =
      record
        { st with
          duplicates_found := st.duplicates_found + 1,
          duplicates_report := reportAdd st.duplicates_report key value } key value := by
  unfold step
  rw [h]
  simp only [hrm, hret, Bool.false_eq_true, if_false, Bool.not_true, if_true]

/-! ### Reflexivity and stability of the sort -/

theorem charsLE_refl : ∀ xs : List Char, charsLE xs xs = true
  | [] => rfl
  | _ :: as => charsLE_cons.mpr (Or.inr ⟨rfl, charsLE_refl as⟩)

theorem sortRel_refl (sort_by : String) (a : Entry) : sortRel sort_by a a :=
  charsLE_refl _

/-- Stability of the modelled `list.sort`: a class of entries whose sort keys
are pairwise related comes out of the sort in its original relative order. -/
theorem filter_sortGroup (sort_by : String) (p : Entry → Bool)
    (hp : ∀ a b : Entry, p a = true → p b = true → sortRel sort_by a b) (l : List Entry) :
    (sortGroup sort_by l).filter p = l.filter p := by
  have hsub : List.Sublist (l.filter p) l := List.filter_sublist _
  have hpw : (l.filter p).Pairwise (sortRel sort_by) :=
    List.pairwise_of_forall_mem_list fun a ha b hb =>
      hp a b (List.of_mem_filter ha) (List.of_mem_filter hb)
  have h2 : List.Sublist (l.filter p) (sortGroup sort_by l) :=
    List.sublist_insertionSort hpw hsub
  have h3 : (l.filter p).filter p = l.filter p :=
    List.filter_eq_self.mpr fun a ha => List.of_mem_filter ha
  have h4 : List.Sublist (l.filter p) ((sortGroup sort_by l).filter p) := by
    have := h2.filter p
    rwa [h3] at this
  have hlen : (l.filter p).length = ((sortGroup sort_by l).filter p).length := by
    rw [← List.countP_eq_length_filter, ← List.countP_eq_length_filter]
    exact ((List.perm_insertionSort (sortRel sort_by) l).countP_eq p).symm
  exact (h4.eq_of_length hlen).symm

/-! ### Shape validation facts -/

theorem asSingleEntry_eq_some {e : JValue} {kv : Entry} (h : asSingleEntry e = some kv) :
    e = .obj [kv] := by
  cases e with
  | obj fs =>
    rcases fs with _ | ⟨⟨k, v⟩, _ | ⟨f2, t⟩⟩
    · simp [asSingleEntry] at h
    · simp only [asSingleEntry, Option.some.injEq] at h
      rw [← h]
    · simp [asSingleEntry] at h
  | null => simp [asSingleEntry] at h
  | bool b => simp [asSingleEntry] at h
  | num n => simp [asSingleEntry] at h
  | str s => simp [asSingleEntry] at h
  | arr es => simp [asSingleEntry] at h

theorem asSingleEntry_obj_single (e : Entry) : asSingleEntry (.obj [e]) = some e := by
  obtain ⟨k, v⟩ := e
  rfl

theorem items_all_single_eq :
    ∀ items : List JValue,
      items.all (fun e => (asSingleEntry e).isSome) = true →
      items = (items.filterMap asSingleEntry).map fun e => JValue.obj [e]
  | [], _ => rfl
  | e :: rest, h => by
    rw [List.all_cons, Bool.and_eq_true] at h
    obtain ⟨he, hrest⟩ := h
    cases has : asSingleEntry e with
    | none => rw [has] at he; simp at he
    | some kv =>
      rw [List.filterMap_cons, has, List.map_cons, ← asSingleEntry_eq_some has]
      exact congrArg (e :: ·) (items_all_single_eq rest hrest)

theorem runEntries_ok_iff (re : Bool) :
    ∀ (items : List JValue) (st : PState),
      (∃ st', runEntries re st items = .ok st') ↔
        items.all (fun e => (asSingleEntry e).isSome) = true
  | [], st => by simp [runEntries]
  | e :: rest, st => by
    rw [List.all_cons, Bool.and_eq_true]
    cases has : asSingleEntry e with
    | none =>
      simp only [runEntries, has]
      constructor
      · rintro ⟨st', hst'⟩
        cases hst'
      · rintro ⟨he, -⟩
        simp at he
    | some kv =>
      obtain ⟨k, v⟩ := kv
      simp only [runEntries, has, Option.isSome_some, true_and]
      exact runEntries_ok_iff re rest (step re st k v)

/-! ### Unfolding equations for `droppedCount` -/

theorem droppedCount_cons (re : Bool) (uniq : List Entry) (k : String) (v : JValue)
    (tail : List Entry) :
    droppedCount re uniq ((k, v) :: tail) =
      match dictGet uniq k with
      | some retained =>
        if (re && v.falsy) = true then droppedCount re uniq tail + 1
        else if (!retained.falsy) = true then droppedCount re uniq tail + 1
        else droppedCount re (dictSet uniq k v) tail
      | none => droppedCount re (dictSet uniq k v) tail := rfl

theorem droppedCount_new {uniq : List Entry} {k : String} (re : Bool) (v : JValue)
    (tail : List Entry) (h : dictGet uniq k = none) :
    droppedCount re uniq ((k, v) :: tail) = droppedCount re (dictSet uniq k v) tail := by
  rw [droppedCount_cons, h]

theorem droppedCount_removed {uniq : List Entry} {k : String} {re : Bool} {v r : JValue}
    (tail : List Entry) (h : dictGet uniq k = some r) (hrm : (re && v.falsy) = true) :
    droppedCount re uniq ((k, v) :: tail) = droppedCount re uniq tail + 1 := by
  rw [droppedCount_cons, h]
  simp only [hrm, if_true]

theorem droppedCount_keep {uniq : List Entry} {k : String} {re : Bool} {v r : JValue}
    (tail : List Entry) (h : dictGet uniq k = some r) (hrm : (re && v.falsy) = false)
    (hret : r.falsy = false) :
    droppedCount re uniq ((k, v) :: tail) = droppedCount re uniq tail + 1 := by
  rw [droppedCount_cons, h]
  simp only [hrm, hret, Bool.false_eq_true, if_false, Bool.not_false, if_true]

theorem droppedCount_promote {uniq : List Entry} {k : String} {re : Bool} {v r : JValue}
    (tail : List Entry) (h : dictGet uniq k = some r) (hrm : (re && v.falsy) = false)
    (hret : r.falsy = true) :
    droppedCount re uniq ((k, v) :: tail) = droppedCount re (dictSet uniq k v) tail := by
  rw [droppedCount_cons, h]
  simp only [hrm, hret, Bool.false_eq_true, if_false, Bool.not_true, if_true]

/-! ### Loop invariants -/

theorem runEntries_count (re : Bool) (items : List JValue) :
    ∀ st st' : PState, runEntries re st items = .ok st' →
      st'.entries_with_value.length + st'.entries_without_value.length
          + droppedCount re st.unique_entries (items.filterMap asSingleEntry)
        = st.entries_with_value.length + st.entries_without_value.length + items.length := by
  induction items with
  | nil =>
    intro st st' h
    simp only [runEntries, Except.ok.injEq] at h
    subst h
    simp [droppedCount]
  | cons e rest ih =>
    intro st st' h
    cases has : asSingleEntry e with
    | none =>
      simp only [runEntries, has] at h
      exact Except.noConfusion h
    | some kv =>
      obtain ⟨k, v⟩ := kv
      simp only [runEntries, has] at h
      rw [List.filterMap_cons, has]
      cases hget : dictGet st.unique_entries k with
      | none =>
        rw [step_not_seen re v hget] at h
        have ihx := ih (record st k v) st' h
        rw [record_unique] at ihx
        have hlen := record_group_length st k v
        rw [List.length_cons, droppedCount_new re v _ hget]
        omega
      | some r =>
        cases hrm : (re && v.falsy) with
        | true =>
          rw [step_dup_removed hget hrm] at h
          have ihx := ih _ st' h
          dsimp only at ihx
          rw [List.length_cons, droppedCount_removed _ hget hrm]
          omega
        | false =>
          cases hret : r.falsy with
          | false =>
            rw [step_dup_keep hget hrm hret] at h
            have ihx := ih _ st' h
            dsimp only at ihx
            rw [List.length_cons, droppedCount_keep _ hget hrm hret]
            omega
          | true =>
            rw [step_dup_promote hget hrm hret] at h
            have ihx := ih _ st' h
            rw [record_unique] at ihx
            dsimp only at ihx
            have hlen := record_group_length
              { st with
                duplicates_found := st.duplicates_found + 1,
                duplicates_report := reportAdd st.duplicates_report k v } k v
            dsimp only at hlen
            rw [List.length_cons, droppedCount_promote _ hget hrm hret]
            omega

theorem record_falsy (st : PState) (k : String) (v : JValue)
    (hw : ∀ e ∈ st.entries_with_value, JValue.falsy e.2 = false)
    (ho : ∀ e ∈ st.entries_without_value, JValue.falsy e.2 = true) :
    (∀ e ∈ (record st k v).entries_with_value, JValue.falsy e.2 = false) ∧
      (∀ e ∈ (record st k v).entries_without_value, JValue.falsy e.2 = true) := by
  unfold record
  cases hv : v.falsy with
  | true =>
    rw [if_pos rfl]
    refine ⟨hw, fun e he => ?_⟩
    rcases List.mem_append.mp he with hold | hnew
    · exact ho e hold
    · rw [List.mem_singleton.mp hnew]
      exact hv
  | false =>
    rw [if_neg (by simp)]
    refine ⟨fun e he => ?_, ho⟩
    rcases List.mem_append.mp he with hold | hnew
    · exact hw e hold
    · rw [List.mem_singleton.mp hnew]
      exact hv

theorem runEntries_falsy (re : Bool) (items : List JValue) :
    ∀ st st' : PState, runEntries re st items = .ok st' →
      (∀ e ∈ st.entries_with_value, JValue.falsy e.2 = false) →
      (∀ e ∈ st.entries_without_value, JValue.falsy e.2 = true) →
      (∀ e ∈ st'.entries_with_value, JValue.falsy e.2 = false) ∧
        (∀ e ∈ st'.entries_without_value, JValue.falsy e.2 = true) := by
  induction items with
  | nil =>
    intro st st' h hw ho
    simp only [runEntries, Except.ok.injEq] at h
    subst h
    exact ⟨hw, ho⟩
  | cons e rest ih =>
    intro st st' h hw ho
    cases has : asSingleEntry e with
    | none =>
      simp only [runEntries, has] at h
      exact Except.noConfusion h
    | some kv =>
      obtain ⟨k, v⟩ := kv
      simp only [runEntries, has] at h
      cases hget : dictGet st.unique_entries k with
      | none =>
        rw [step_not_seen re v hget] at h
        have hr := record_falsy st k v hw ho
        exact ih _ st' h hr.1 hr.2
      | some r =>
        cases hrm : (re && v.falsy) with
        | true =>
          rw [step_dup_removed hget hrm] at h
          exact ih _ st' h hw ho
        | false =>
          cases hret : r.falsy with
          | false =>
            rw [step_dup_keep hget hrm hret] at h
            exact ih _ st' h hw ho
          | true =>
            rw [step_dup_promote hget hrm hret] at h
            have hr := record_falsy
              { st with
                duplicates_found := st.duplicates_found + 1,
                duplicates_report := reportAdd st.duplicates_report k v } k v hw ho
            exact ih _ st' h hr.1 hr.2

theorem runEntries_counters (re : Bool) (items : List JValue) :
    ∀ st st' : PState, runEntries re st items = .ok st' →
      st'.duplicates_removed + st.duplicates_found
          ≤ st'.duplicates_found + st.duplicates_removed ∧
        (re = false → st'.duplicates_removed = st.duplicates_removed) := by
  induction items with
  | nil =>
    intro st st' h
    simp only [runEntries, Except.ok.injEq] at h
    subst h
    exact ⟨by omega, fun _ => rfl⟩
  | cons e rest ih =>
    intro st st' h
    cases has : asSingleEntry e with
    | none =>
      simp only [runEntries, has] at h
      exact Except.noConfusion h
    | some kv =>
      obtain ⟨k, v⟩ := kv
      simp only [runEntries, has] at h
      cases hget : dictGet st.unique_entries k with
      | none =>
        rw [step_not_seen re v hget] at h
        have ihx := ih _ st' h
        rw [record_found, record_removed] at ihx
        exact ihx
      | some r =>
        cases hrm : (re && v.falsy) with
        | true =>
          rw [step_dup_removed hget hrm] at h
          have ihx := ih _ st' h
          dsimp only at ihx
          have hre : re = true := by
            cases re
            · simp at hrm
            · rfl
          refine ⟨by omega, fun hfalse => ?_⟩
          rw [hre] at hfalse
          cases hfalse
        | false =>
          cases hret : r.falsy with
          | false =>
            rw [step_dup_keep hget hrm hret] at h
            have ihx := ih _ st' h
            dsimp only at ihx
            exact ⟨by omega, ihx.2⟩
          | true =>
            rw [step_dup_promote hget hrm hret] at h
            have ihx := ih _ st' h
            rw [record_found, record_removed] at ihx
            dsimp only at ihx
            exact ⟨by omega, ihx.2⟩

/-- Processing a document with pairwise-distinct keys never enters the
duplicate branch: the groups grow by the truthy/falsy partition in order, and
the duplicate counters do not move. -/
theorem runEntries_nodup (re : Bool) (l : List Entry) :
    ∀ st : PState,
      (∀ e ∈ l, dictGet st.unique_entries e.1 = none) →
      (l.map Prod.fst).Nodup →
      ∃ st', runEntries re st (l.map fun e => JValue.obj [e]) = .ok st' ∧
        st'.entries_with_value
            = st.entries_with_value ++ l.filter (fun e => !JValue.falsy e.2) ∧
        st'.entries_without_value
            = st.entries_without_value ++ l.filter (fun e => JValue.falsy e.2) ∧
        st'.duplicates_found = st.duplicates_found ∧
        st'.duplicates_removed = st.duplicates_removed := by
  induction l with
  | nil =>
    intro st _ _
    exact ⟨st, rfl, by simp, by simp, rfl, rfl⟩
  | cons e l ih =>
    intro st hdisj hnd
    obtain ⟨k, v⟩ := e
    have hget : dictGet st.unique_entries k = none := hdisj (k, v) (List.mem_cons_self _ _)
    have hstep : step re st k v = record st k v := step_not_seen re v hget
    have hnd' : (l.map Prod.fst).Nodup := (List.nodup_cons.mp hnd).2
    have hknotin : k ∉ l.map Prod.fst := (List.nodup_cons.mp hnd).1
    have hdisj' : ∀ e ∈ l, dictGet (record st k v).unique_entries e.1 = none := by
      intro e he
      rw [record_unique, dictGet_dictSet]
      have hne : ¬ k = e.1 := by
        intro hkeq
        exact hknotin (hkeq ▸ List.mem_map_of_mem Prod.fst he)
      rw [if_neg hne]
      exact hdisj e (List.mem_cons_of_mem _ he)
    obtain ⟨st', hrun, hwith, hwithout, hfound, hremoved⟩ := ih (record st k v) hdisj' hnd'
    refine ⟨st', ?_, ?_, ?_, ?_, ?_⟩
    · rw [List.map_cons]
      simp only [runEntries, asSingleEntry_obj_single (k, v)]
      rw [hstep]
      exact hrun
    · rw [hwith, List.filter_cons]
      cases hv : JValue.falsy v with
      | true =>
        have := (record_without_of_falsy st k hv).2
        simp only [this, Bool.not_true]
        rfl
      | false =>
        have := (record_with_of_truthy st k hv).1
        simp only [this, Bool.not_false]
        simp [List.append_assoc]
    · rw [hwithout, List.filter_cons]
      cases hv : JValue.falsy v with
      | true =>
        have := (record_without_of_falsy st k hv).1
        simp only [this]
        simp [List.append_assoc]
      | false =>
        have := (record_with_of_truthy st k hv).2
        simp only [this]
        rfl
    · rw [hfound, record_found]
    · rw [hremoved, record_removed]

/-! ### Process-level lemmas -/

theorem process_eq_of_run {re : Bool} {items : List JValue} {st : PState} (sb : String)
    (hrun : runEntries re initState items = .ok st) :
    process_dictionary (.arr items) sb re = .ok
      (sortGroup sb st.entries_with_value ++ sortGroup sb st.entries_without_value,
       { total_entries := items.length,
         duplicates_found := st.duplicates_found,
         duplicates_removed := st.duplicates_removed,
         entries_with_value := (sortGroup sb st.entries_with_value).length,
         entries_without_value := (sortGroup sb st.entries_without_value).length }) := by
  simp only [process_dictionary]
  rw [hrun]

theorem process_ok_inv {data : JValue} {sb : String} {re : Bool} {res : List Entry}
    {stats : Stats} (h : process_dictionary data sb re = .ok (res, stats)) :
    ∃ (items : List JValue) (st : PState),
      data = JValue.arr items ∧
      runEntries re initState items = .ok st ∧
      res = sortGroup sb st.entries_with_value ++ sortGroup sb st.entries_without_value ∧
      stats = { total_entries := items.length,
                duplicates_found := st.duplicates_found,
                duplicates_removed := st.duplicates_removed,
                entries_with_value := (sortGroup sb st.entries_with_value).length,
                entries_without_value := (sortGroup sb st.entries_without_value).length } := by
  cases data with
  | arr items =>
    refine ⟨items, ?_⟩
    simp only [process_dictionary] at h
    cases hrun : runEntries re initState items with
    | error e =>
      rw [hrun] at h
      exact Except.noConfusion h
    | ok st =>
      rw [hrun] at h
      simp only [Except.ok.injEq, Prod.mk.injEq] at h
      exact ⟨st, rfl, rfl, h.1.symm, h.2.symm⟩
  | null => exact Except.noConfusion h
  | bool b => exact Except.noConfusion h
  | num n => exact Except.noConfusion h
  | str s => exact Except.noConfusion h
  | obj fs => exact Except.noConfusion h

theorem groupsOf_eq {re : Bool} {items : List JValue} {st : PState}
    (hrun : runEntries re initState items = .ok st) :
    groupsOf (.arr items) re = (st.entries_with_value, st.entries_without_value) := by
  simp only [groupsOf]
  rw [hrun]

/-! ### Congruence for the sort order (fallback of `sort_by`) -/

theorem orderedInsert_congr {r s : Entry → Entry → Prop} [DecidableRel r] [DecidableRel s]
    (hrs : ∀ a b, r a b ↔ s a b) (a : Entry) :
    ∀ l : List Entry, List.orderedInsert r a l = List.orderedInsert s a l
  | [] => rfl
  | b :: l => by
    simp only [List.orderedInsert]
    by_cases hab : r a b
    · rw [if_pos hab, if_pos ((hrs a b).mp hab)]
    · rw [if_neg hab, if_neg (fun hc => hab ((hrs a b).mpr hc)), orderedInsert_congr hrs a l]

theorem insertionSort_congr {r s : Entry → Entry → Prop} [DecidableRel r] [DecidableRel s]
    (hrs : ∀ a b, r a b ↔ s a b) :
    ∀ l : List Entry, List.insertionSort r l = List.insertionSort s l
  | [] => rfl
  | a :: l => by
    simp only [List.insertionSort]
    rw [insertionSort_congr hrs l, orderedInsert_congr hrs a]

theorem sort_key_fallback {sb : String} (h : ¬ sb = "key") (item : Entry) :
    sort_key sb item = sort_key "value" item := by
  unfold sort_key
  rw [if_neg h, if_neg (by decide)]

theorem sortGroup_fallback {sb : String} (h : ¬ sb = "key") (l : List Entry) :
    sortGroup sb l = sortGroup "value" l := by
  unfold sortGroup
  exact insertionSort_congr
    (fun a b => by unfold sortRel; rw [sort_key_fallback h a, sort_key_fallback h b]) l

theorem process_fallback {sb : String} (h : ¬ sb = "key") (data : JValue) (re : Bool) :
    process_dictionary data sb re = process_dictionary data "value" re := by
  cases data with
  | arr items =>
    cases hrun : runEntries re initState items with
    | error e =>
      simp only [process_dictionary]
      rw [hrun]
    | ok st =>
      simp only [process_dictionary]
      rw [hrun]
      simp only [sortGroup_fallback h]
  | null => rfl
  | bool b => rfl
  | num n => rfl
  | str s => rfl
  | obj fs => rfl

/-- Sortedness of a sorted group, packaged for the output order. -/
theorem sortGroup_pairwise (sb : String) (l : List Entry) :
    (sortGroup sb l).Pairwise (sortRel sb) :=
  List.sorted_insertionSort (sortRel sb) l

theorem sortGroup_idem (sb : String) (l : List Entry) :
    sortGroup sb (sortGroup sb l) = sortGroup sb l :=
  List.Sorted.insertionSort_eq (sortGroup_pairwise sb l)

theorem mem_sortGroup {sb : String} {l : List Entry} {e : Entry}
    (h : e ∈ sortGroup sb l) : e ∈ l :=
  (List.mem_insertionSort (sortRel sb)).mp h

/-! ### Claim theorems -/

/-- Claim C9: the empty document is valid for every option combination and
yields an empty Result and all-zero Stats. -/
theorem C9_empty_document (sort_by : String) (remove_empty_duplicates : Bool) :
    process_dictionary (JValue.arr []) sort_by remove_empty_duplicates =
      .ok ([], ⟨0, 0, 0, 0, 0⟩) := rfl

/-- Claim C5: the spec scenario `[a:x, b:empty, a:empty, c:y]` with
`sort_by="key"`: with `remove_empty_duplicates=true` the Result is
`[a:x, c:y, b:empty]` with stats `(4,1,1,2,1)`; with it false the Result is
unchanged and only `duplicates_removed` drops to `0`. -/
theorem C5_scenario :
    process_dictionary
        (JValue.arr [JValue.obj [("a", JValue.str "x")], JValue.obj [("b", JValue.str "")],
          JValue.obj [("a", JValue.str "")], JValue.obj [("c", JValue.str "y")]])
        "key" true =
      .ok ([("a", JValue.str "x"), ("c", JValue.str "y"), ("b", JValue.str "")],
        ⟨4, 1, 1, 2, 1⟩) ∧
    process_dictionary
        (JValue.arr [JValue.obj [("a", JValue.str "x")], JValue.obj [("b", JValue.str "")],
          JValue.obj [("a", JValue.str "")], JValue.obj [("c", JValue.str "y")]])
        "key" false =
      .ok ([("a", JValue.str "x"), ("c", JValue.str "y"), ("b", JValue.str "")],
        ⟨4, 1, 0, 2, 1⟩) :=
  ⟨rfl, rfl⟩

/-- Claim C1 is false on the code: on `[a:empty, a:x]` with
`remove_empty_duplicates=true` the non-first occurrence `a:x` is promoted
into the with-value group (and overwrites the retained value), so the Result
contains the duplicate entry. -/
theorem C1_counterexample :
    process_dictionary
        (JValue.arr [JValue.obj [("a", JValue.str "")], JValue.obj [("a", JValue.str "x")]])
        "key" true =
      .ok ([("a", JValue.str "x"), ("a", JValue.str "")], ⟨2, 1, 0, 1, 1⟩) ∧
    ("a", JValue.str "x") ∈
      [("a", JValue.str "x"), ("a", JValue.str "")] :=
  ⟨rfl, List.mem_cons_self _ _⟩

/-- Claim C1 (amended): a duplicate occurrence of a key is excluded from both
output groups and leaves `unique_entries` unchanged when it is removed
(`remove_empty_duplicates` and empty value) or the retained value is
non-empty; but when the retained value is empty and the duplicate is not
removed, the duplicate overwrites the retained value and is appended to the
group matching its own emptiness. -/
theorem C1_duplicate_partition (re : Bool) (st : PState) (key : String)
    (value retained : JValue) (h : dictGet st.unique_entries key = some retained) :
    (((re && value.falsy) = true ∨ retained.falsy = false) →
        (step re st key value).entries_with_value = st.entries_with_value ∧
        (step re st key value).entries_without_value = st.entries_without_value ∧
        (step re st key value).unique_entries = st.unique_entries) ∧
    ((re && value.falsy) = false → retained.falsy = true → value.falsy = false →
        (step re st key value).entries_with_value = st.entries_with_value ++ [(key, value)] ∧
        (step re st key value).entries_without_value = st.entries_without_value ∧
        (step re st key value).unique_entries = dictSet st.unique_entries key value) ∧
    ((re && value.falsy) = false → retained.falsy = true → value.falsy = true →
        (step re st key value).entries_without_value
            = st.entries_without_value ++ [(key, value)] ∧
        (step re st key value).entries_with_value = st.entries_with_value ∧
        (step re st key value).unique_entries = dictSet st.unique_entries key value) := by
  refine ⟨?_, ?_, ?_⟩
  · intro hcase
    rcases hcase with hrm | hret
    · rw [step_dup_removed h hrm]
      exact ⟨rfl, rfl, rfl⟩
    · cases hrm : (re && value.falsy) with
      | true =>
        rw [step_dup_removed h hrm]
        exact ⟨rfl, rfl, rfl⟩
      | false =>
        rw [step_dup_keep h hrm hret]
        exact ⟨rfl, rfl, rfl⟩
  · intro hrm hret hv
    rw [step_dup_promote h hrm hret]
    exact ⟨(record_with_of_truthy _ key hv).1, (record_with_of_truthy _ key hv).2,
      record_unique _ key value⟩
  · intro hrm hret hv
    rw [step_dup_promote h hrm hret]
    exact ⟨(record_without_of_falsy _ key hv).1, (record_without_of_falsy _ key hv).2,
      record_unique _ key value⟩

/-- Witness for C1: a concrete duplicate with an empty retained value and a
non-empty new value is appended to the with-value group and overwrites the
retained value. -/
theorem C1_witness :
    dictGet (PState.mk [("a", JValue.str "")] [] [] [("a", JValue.str "")] 0 0).unique_entries
        "a" = some (JValue.str "") ∧
    (step true (PState.mk [("a", JValue.str "")] [] [] [("a", JValue.str "")] 0 0) "a"
        (JValue.str "x")).entries_with_value = [("a", JValue.str "x")] ∧
    (step true (PState.mk [("a", JValue.str "")] [] [] [("a", JValue.str "")] 0 0) "a"
        (JValue.str "x")).unique_entries = [("a", JValue.str "x")] := by
  refine ⟨rfl, ?_⟩
  have h := (C1_duplicate_partition true
    (PState.mk [("a", JValue.str "")] [] [] [("a", JValue.str "")] 0 0) "a"
    (JValue.str "x") (JValue.str "") rfl).2.1 rfl rfl rfl
  exact ⟨h.1, h.2.2⟩

/-- Claim C2 is violated by the code: on `[a:empty, a:x]` with
`remove_empty_duplicates=true` the Result contains the key `a` twice. -/
theorem C2_key_not_unique :
    process_dictionary
        (JValue.arr [JValue.obj [("a", JValue.str "")], JValue.obj [("a", JValue.str "x")]])
        "key" true =
      .ok ([("a", JValue.str "x"), ("a", JValue.str "")], ⟨2, 1, 0, 1, 1⟩) ∧
    ¬ (([("a", JValue.str "x"), ("a", JValue.str "")].map Prod.fst).Nodup) :=
  ⟨rfl, by decide⟩

/-- Claim C3: count conservation. The two group sizes plus the number of
duplicate occurrences dropped from the output (removed or not) equal the
total number of input entries. -/
theorem C3_count_conservation (data : JValue) (sort_by : String) (re : Bool)
    (res : List Entry) (stats : Stats)
    (h : process_dictionary data sort_by re = .ok (res, stats)) :
    stats.entries_with_value + stats.entries_without_value
        + droppedCount re [] (entriesOf data) = stats.total_entries := by
  obtain ⟨items, st, hdata, hrun, -, hstats⟩ := process_ok_inv h
  subst hdata
  subst hstats
  have hcount := runEntries_count re items initState st hrun
  dsimp only [initState] at hcount
  simp only [List.length_nil] at hcount
  have hw : (sortGroup sort_by st.entries_with_value).length
      = st.entries_with_value.length := by
    simp [sortGroup, List.length_insertionSort]
  have hwo : (sortGroup sort_by st.entries_without_value).length
      = st.entries_without_value.length := by
    simp [sortGroup, List.length_insertionSort]
  dsimp only
  simp only [entriesOf]
  rw [hw, hwo]
  omega

/-- Witness for C3 at a concrete two-entry document with one removed
duplicate. -/
theorem C3_witness :
    process_dictionary
        (JValue.arr [JValue.obj [("b", JValue.str "y")], JValue.obj [("b", JValue.str "")]])
        "key" true = .ok ([("b", JValue.str "y")], ⟨2, 1, 1, 1, 0⟩) ∧
    (1 : Nat) + 0 + droppedCount true []
        (entriesOf (JValue.arr [JValue.obj [("b", JValue.str "y")],
          JValue.obj [("b", JValue.str "")]])) = 2 :=
  ⟨rfl, C3_count_conservation
    (JValue.arr [JValue.obj [("b", JValue.str "y")], JValue.obj [("b", JValue.str "")]])
    "key" true [("b", JValue.str "y")] ⟨2, 1, 1, 1, 0⟩ rfl⟩

/-- Claim C6: the operation raises exactly when the input shape is invalid
(not an array, or an element that is not a single-key object), and on a shape
error nothing is written to the destination. -/
theorem C6_shape_error (data : JValue) (sort_by : String) (re mo : Bool) (orig : String) :
    ((∃ e, process_dictionary data sort_by re = .error e) ↔ shapeOk data = false) ∧
    (shapeOk data = false → fileAfter data sort_by re mo orig = orig) := by
  have hmain : (∃ e, process_dictionary data sort_by re = .error e) ↔ shapeOk data = false := by
    cases data with
    | arr items =>
      simp only [process_dictionary, shapeOk]
      cases hrun : runEntries re initState items with
      | error e =>
        simp only [hrun]
        constructor
        · rintro -
          cases hall : items.all fun e => (asSingleEntry e).isSome with
          | false => rfl
          | true =>
            obtain ⟨st', hst'⟩ := (runEntries_ok_iff re items initState).mpr hall
            rw [hst'] at hrun
            exact Except.noConfusion hrun
        · rintro -
          exact ⟨e, rfl⟩
      | ok st =>
        simp only [hrun]
        constructor
        · rintro ⟨e, he⟩
          exact Except.noConfusion he
        · intro hall
          have hok : ∃ st', runEntries re initState items = .ok st' := ⟨st, hrun⟩
          rw [runEntries_ok_iff] at hok
          rw [hok] at hall
          exact Bool.noConfusion hall
    | null => exact ⟨fun _ => rfl, fun _ => ⟨_, rfl⟩⟩
    | bool b => exact ⟨fun _ => rfl, fun _ => ⟨_, rfl⟩⟩
    | num n => exact ⟨fun _ => rfl, fun _ => ⟨_, rfl⟩⟩
    | str s => exact ⟨fun _ => rfl, fun _ => ⟨_, rfl⟩⟩
    | obj fs => exact ⟨fun _ => rfl, fun _ => ⟨_, rfl⟩⟩
  refine ⟨hmain, fun hbad => ?_⟩
  obtain ⟨e, he⟩ := hmain.mpr hbad
  simp only [fileAfter, run_process]
  rw [he]

/-- Witness for C6: the spec's two shape examples both raise and leave the
destination untouched. -/
theorem C6_witness :
    shapeOk (JValue.obj [("a", JValue.num 1)]) = false ∧
    fileAfter (JValue.obj [("a", JValue.num 1)]) "key" true true "x" = "x" ∧
    shapeOk (JValue.arr [JValue.obj [("a", JValue.num 1), ("b", JValue.num 2)]]) = false ∧
    fileAfter (JValue.arr [JValue.obj [("a", JValue.num 1), ("b", JValue.num 2)]])
        "key" true true "x" = "x" :=
  ⟨rfl, (C6_shape_error _ _ _ _ _).2 rfl, rfl, (C6_shape_error _ _ _ _ _).2 rfl⟩

/-- Claim C8: with `modify_original = false` the transform returns the same
Result and Stats as with `true`, and the destination text is unchanged. -/
theorem C8_no_write (data : JValue) (sort_by : String) (re : Bool) (orig : String)
    (res : List Entry) (stats : Stats) (written : String)
    (h : run_process data sort_by re true orig = .ok (res, stats, written)) :
    run_process data sort_by re false orig = .ok (res, stats, orig) := by
  unfold run_process at h ⊢
  cases hp : process_dictionary data sort_by re with
  | error e =>
    rw [hp] at h
    exact Except.noConfusion h
  | ok pair =>
    obtain ⟨r0, s0⟩ := pair
    rw [hp] at h
    simp only [Except.ok.injEq, Prod.mk.injEq] at h
    obtain ⟨h1, h2, -⟩ := h
    subst h1
    subst h2
    rfl

/-- Witness for C8 on a one-entry document. -/
theorem C8_witness :
    run_process (JValue.arr [JValue.obj [("a", JValue.str "x")]]) "key" true false "orig"
      = .ok ([("a", JValue.str "x")], ⟨1, 0, 0, 1, 0⟩, "orig") :=
  C8_no_write _ _ _ _ _ _ _ rfl

/-- Claim C10: `duplicates_removed ≤ duplicates_found`; removal never happens
with `remove_empty_duplicates = false`; and both counters stay `0` on a
document without repeated keys. -/
theorem C10_counter_invariants (data : JValue) (sort_by : String) (re : Bool)
    (res : List Entry) (stats : Stats)
    (h : process_dictionary data sort_by re = .ok (res, stats)) :
    stats.duplicates_removed ≤ stats.duplicates_found ∧
    (re = false → stats.duplicates_removed = 0) ∧
    (((entriesOf data).map Prod.fst).Nodup →
        stats.duplicates_found = 0 ∧ stats.duplicates_removed = 0) := by
  obtain ⟨items, st, hdata, hrun, -, hstats⟩ := process_ok_inv h
  subst hdata
  subst hstats
  have hc := runEntries_counters re items initState st hrun
  dsimp only [initState] at hc
  dsimp only
  refine ⟨by omega, fun hre => hc.2 hre, fun hnd => ?_⟩
  have hall : items.all (fun e => (asSingleEntry e).isSome) = true :=
    (runEntries_ok_iff re items initState).mp ⟨st, hrun⟩
  have hitems := items_all_single_eq items hall
  simp only [entriesOf] at hnd
  obtain ⟨st2, hrun2, -, -, hf2, hr2⟩ :=
    runEntries_nodup re (items.filterMap asSingleEntry) initState (fun e _ => rfl) hnd
  rw [← hitems] at hrun2
  rw [hrun] at hrun2
  have hst : st = st2 := by
    simp only [Except.ok.injEq] at hrun2
    exact hrun2
  rw [hst]
  dsimp only [initState] at hf2 hr2
  exact ⟨hf2, hr2⟩

/-- Witness for C10 at a concrete duplicate-free document. -/
theorem C10_witness :
    process_dictionary
        (JValue.arr [JValue.obj [("a", JValue.str "x")], JValue.obj [("b", JValue.str "")]])
        "key" false = .ok ([("a", JValue.str "x"), ("b", JValue.str "")], ⟨2, 0, 0, 1, 1⟩) ∧
    ((0 : Nat) ≤ 0 ∧ (false = false → (0 : Nat) = 0) ∧
      (((entriesOf (JValue.arr [JValue.obj [("a", JValue.str "x")],
            JValue.obj [("b", JValue.str "")]])).map Prod.fst).Nodup →
          (0 : Nat) = 0 ∧ (0 : Nat) = 0)) :=
  ⟨rfl, C10_counter_invariants
    (JValue.arr [JValue.obj [("a", JValue.str "x")], JValue.obj [("b", JValue.str "")]])
    "key" false [("a", JValue.str "x"), ("b", JValue.str "")] ⟨2, 0, 0, 1, 1⟩ rfl⟩

/-- Claim C7: the Result is the concatenation of the two first-seen groups,
each sorted non-decreasingly by the case-insensitive sort key (the lowercased
key exactly when `sort_by = "key"`, the lowercased `str(value)` otherwise —
any unrecognized `sort_by` behaves exactly like `"value"`, never an error),
and entries with equal sort keys keep their first-seen relative order. -/
theorem C7_sorting (data : JValue) (sort_by : String) (re : Bool)
    (res : List Entry) (stats : Stats)
    (h : process_dictionary data sort_by re = .ok (res, stats)) :
    (¬ sort_by = "key" →
        process_dictionary data sort_by re = process_dictionary data "value" re) ∧
    res = sortGroup sort_by (groupsOf data re).1 ++ sortGroup sort_by (groupsOf data re).2 ∧
    (sortGroup sort_by (groupsOf data re).1).Pairwise (sortRel sort_by) ∧
    (sortGroup sort_by (groupsOf data re).2).Pairwise (sortRel sort_by) ∧
    (∀ K : String,
      (sortGroup sort_by (groupsOf data re).1).filter (fun e => sort_key sort_by e == K)
        = (groupsOf data re).1.filter (fun e => sort_key sort_by e == K)) ∧
    (∀ K : String,
      (sortGroup sort_by (groupsOf data re).2).filter (fun e => sort_key sort_by e == K)
        = (groupsOf data re).2.filter (fun e => sort_key sort_by e == K)) := by
  obtain ⟨items, st, hdata, hrun, hres, -⟩ := process_ok_inv h
  subst hdata
  rw [groupsOf_eq hrun]
  have hstab : ∀ (K : String) (l : List Entry),
      (sortGroup sort_by l).filter (fun e => sort_key sort_by e == K)
        = l.filter (fun e => sort_key sort_by e == K) := by
    intro K l
    refine filter_sortGroup sort_by _ ?_ l
    intro a b ha hb
    have ha2 : sort_key sort_by a = K := eq_of_beq ha
    have hb2 : sort_key sort_by b = K := eq_of_beq hb
    unfold sortRel
    rw [ha2, hb2]
    exact charsLE_refl K.data
  exact ⟨fun hnk => process_fallback hnk _ _, hres, sortGroup_pairwise _ _,
    sortGroup_pairwise _ _, fun K => hstab K _, fun K => hstab K _⟩

/-- Witness for C7 on a concrete two-entry document. -/
theorem C7_witness :
    process_dictionary
        (JValue.arr [JValue.obj [("B", JValue.str "x")], JValue.obj [("a", JValue.str "")]])
        "key" true =
      .ok ([("B", JValue.str "x"), ("a", JValue.str "")], ⟨2, 0, 0, 1, 1⟩) ∧
    [("B", JValue.str "x"), ("a", JValue.str "")]
      = sortGroup "key"
          (groupsOf (JValue.arr [JValue.obj [("B", JValue.str "x")],
            JValue.obj [("a", JValue.str "")]]) true).1 ++
        sortGroup "key"
          (groupsOf (JValue.arr [JValue.obj [("B", JValue.str "x")],
            JValue.obj [("a", JValue.str "")]]) true).2 ∧
    (sortGroup "key"
        (groupsOf (JValue.arr [JValue.obj [("B", JValue.str "x")],
          JValue.obj [("a", JValue.str "")]]) true).1).filter
        (fun e => sort_key "key" e == "b")
      = (groupsOf (JValue.arr [JValue.obj [("B", JValue.str "x")],
          JValue.obj [("a", JValue.str "")]]) true).1.filter
        (fun e => sort_key "key" e == "b") :=
  ⟨rfl,
    (C7_sorting
      (JValue.arr [JValue.obj [("B", JValue.str "x")], JValue.obj [("a", JValue.str "")]])
      "key" true [("B", JValue.str "x"), ("a", JValue.str "")] ⟨2, 0, 0, 1, 1⟩ rfl).2.1,
    (C7_sorting
      (JValue.arr [JValue.obj [("B", JValue.str "x")], JValue.obj [("a", JValue.str "")]])
      "key" true [("B", JValue.str "x"), ("a", JValue.str "")]
      ⟨2, 0, 0, 1, 1⟩ rfl).2.2.2.2.1 "b"⟩

/-- Claim C4 is false on the code: on `[a:empty, a:x]` the first run returns
`[a:x, a:empty]`; re-running the Normalizer on that Result returns the
shorter Result `[a:x]` with a second-pass `duplicates_found = 1`, not `0`. -/
theorem C4_counterexample :
    process_dictionary
        (JValue.arr [JValue.obj [("a", JValue.str "")], JValue.obj [("a", JValue.str "x")]])
        "key" true =
      .ok ([("a", JValue.str "x"), ("a", JValue.str "")], ⟨2, 1, 0, 1, 1⟩) ∧
    process_dictionary (toDoc [("a", JValue.str "x"), ("a", JValue.str "")]) "key" true =
      .ok ([("a", JValue.str "x")], ⟨2, 1, 1, 1, 0⟩) ∧
    ([("a", JValue.str "x")] : List Entry).length
      ≠ ([("a", JValue.str "x"), ("a", JValue.str "")] : List Entry).length :=
  ⟨rfl, rfl, by decide⟩

/-- Claim C4 (amended): idempotence holds whenever the first Result has
pairwise-distinct keys (which fails only when a first-seen empty value is
later followed by a non-removed duplicate): re-running the Normalizer with
`remove_empty_duplicates = true` on such a Result returns the identical
Result with a second-pass `duplicates_found = 0`. -/
theorem C4_idempotent_of_nodup (data : JValue) (sort_by : String)
    (res : List Entry) (stats : Stats)
    (h : process_dictionary data sort_by true = .ok (res, stats))
    (hnd : (res.map Prod.fst).Nodup) :
    ∃ stats2 : Stats,
      process_dictionary (toDoc res) sort_by true = .ok (res, stats2) ∧
      stats2.duplicates_found = 0 := by
  obtain ⟨items, st, hdata, hrun, hres, -⟩ := process_ok_inv h
  subst hdata
  obtain ⟨hw, ho⟩ := runEntries_falsy true items initState st hrun
    (fun e he => absurd he (List.not_mem_nil e)) (fun e he => absurd he (List.not_mem_nil e))
  have hsw : ∀ e ∈ sortGroup sort_by st.entries_with_value, JValue.falsy e.2 = false :=
    fun e he => hw e (mem_sortGroup he)
  have hso : ∀ e ∈ sortGroup sort_by st.entries_without_value, JValue.falsy e.2 = true :=
    fun e he => ho e (mem_sortGroup he)
  obtain ⟨st2, hrun2, hw2, ho2, hf2, hr2⟩ :=
    runEntries_nodup true res initState (fun e _ => rfl) hnd
  have hproc2 := process_eq_of_run sort_by hrun2
  have hw2x : st2.entries_with_value = sortGroup sort_by st.entries_with_value := by
    rw [hw2]
    dsimp only [initState]
    rw [List.nil_append, hres, List.filter_append]
    have h1 : (sortGroup sort_by st.entries_with_value).filter (fun e => !JValue.falsy e.2)
        = sortGroup sort_by st.entries_with_value :=
      List.filter_eq_self.mpr fun a ha => by rw [hsw a ha]; rfl
    have h2 : (sortGroup sort_by st.entries_without_value).filter (fun e => !JValue.falsy e.2)
        = [] :=
      List.filter_eq_nil_iff.mpr fun a ha => by rw [hso a ha]; simp
    rw [h1, h2, List.append_nil]
  have ho2x : st2.entries_without_value = sortGroup sort_by st.entries_without_value := by
    rw [ho2]
    dsimp only [initState]
    rw [List.nil_append, hres, List.filter_append]
    have h1 : (sortGroup sort_by st.entries_with_value).filter (fun e => JValue.falsy e.2)
        = [] :=
      List.filter_eq_nil_iff.mpr fun a ha => by rw [hsw a ha]; simp
    have h2 : (sortGroup sort_by st.entries_without_value).filter (fun e => JValue.falsy e.2)
        = sortGroup sort_by st.entries_without_value :=
      List.filter_eq_self.mpr fun a ha => hso a ha
    rw [h1, h2, List.nil_append]
  rw [hw2x, ho2x, sortGroup_idem, sortGroup_idem, ← hres] at hproc2
  refine ⟨{ total_entries := (res.map fun e => JValue.obj [e]).length,
            duplicates_found := st2.duplicates_found,
            duplicates_removed := st2.duplicates_removed,
            entries_with_value := (sortGroup sort_by st.entries_with_value).length,
            entries_without_value := (sortGroup sort_by st.entries_without_value).length },
        ?_, ?_⟩
  · have htd : toDoc res = JValue.arr (res.map fun e => JValue.obj [e]) := rfl
    rw [htd]
    exact hproc2
  · show st2.duplicates_found = 0
    rw [hf2]
    rfl

/-- Witness for C4 on a one-entry document, whose Result trivially has unique
keys. -/
theorem C4_witness :
    (([("a", JValue.str "x")].map Prod.fst).Nodup) ∧
    ∃ stats2 : Stats,
      process_dictionary (toDoc [("a", JValue.str "x")]) "key" true
        = .ok ([("a", JValue.str "x")], stats2) ∧ stats2.duplicates_found = 0 :=
  ⟨by decide, C4_idempotent_of_nodup
    (JValue.arr [JValue.obj [("a", JValue.str "x")]]) "key"
    [("a", JValue.str "x")] ⟨1, 0, 0, 1, 0⟩ rfl (by decide)⟩

end Checkit
